import Mathlib

/-!
Verification of the ClimateHealthMapper `ai-model` component.

This file shallowly embeds the Python sources
`data_processor.py`, `model.py`, `train_model.py` and `health_predictor.py`
and proves/refutes the frozen claims about them.

Modelling conventions:
* A pandas `DataFrame` is a rectangular table: an ordered list of column
  names plus one list of cells per row; a cell is `Option ℚ` where `none`
  models `NaN` (a missing value).
* Numeric values are exact rationals `ℚ` on the data-processing side and
  reals `ℝ` on the neural-network side (where `exp`/`sqrt` appear).
* Python exceptions are modelled with `Except PyError`; `PyError`
  distinguishes `ValueError` (an explicit guarded `raise`) from
  `AttributeError` (access to an attribute that was never assigned).
-/

namespace ClimateHealth

/-- A dataframe cell: `none` models `NaN` / a missing value. -/
abbrev Cell := Option ℚ

/-- One dataframe row: the cells, positionally aligned with the column list. -/
abbrev Row := List Cell

/-- A pandas dataframe: ordered column names plus rows of cells.
Rectangularity (`row.length = cols.length`) is pandas' invariant and is
carried as a hypothesis where proofs need it. -/
structure DF where
  cols : List String
  rows : List Row
  deriving DecidableEq, Repr

/-- Index of the first occurrence of a column name, `none` if absent. -/
def colIdx : List String → String → Option Nat
  | [], _ => none
  | a :: as, c => if a = c then some 0 else (colIdx as c).map (· + 1)

/-- Value of column `c` in a row (`none` when the column is absent or holds NaN). -/
def getVal (cols : List String) (row : Row) (c : String) : Cell :=
  match colIdx cols c with
  | some i => row.getD i none
  | none => none

/-! ### Basic facts about `colIdx` / `getVal` -/

theorem colIdx_none_iff (l : List String) (c : String) :
    colIdx l c = none ↔ c ∉ l := by
  induction l with
  | nil => simp [colIdx]
  | cons a as ih =>
    by_cases h : a = c
    · subst h; simp [colIdx]
    · have hca : ¬c = a := fun hh => h hh.symm
      simp [colIdx, h, Option.map_eq_none', ih, hca]

theorem colIdx_isSome_iff (l : List String) (c : String) :
    (colIdx l c).isSome ↔ c ∈ l := by
  rw [Option.isSome_iff_ne_none, ne_eq, colIdx_none_iff, not_not]

theorem colIdx_get (l : List String) (c : String) (i : Nat)
    (h : colIdx l c = some i) : l[i]? = some c := by
  induction l generalizing i with
  | nil => simp [colIdx] at h
  | cons a as ih =>
    by_cases ha : a = c
    · subst ha
      simp [colIdx] at h
      subst h; simp
    · simp [colIdx, ha] at h
      obtain ⟨j, hj, rfl⟩ := h
      simpa using ih j hj

theorem colIdx_lt_length (l : List String) (c : String) (i : Nat)
    (h : colIdx l c = some i) : i < l.length := by
  have := colIdx_get l c i h
  exact (List.getElem?_eq_some.mp this).1

theorem colIdx_inj (l : List String) (c c' : String) (i : Nat)
    (hc : colIdx l c = some i) (hc' : colIdx l c' = some i) : c = c' := by
  have h1 := colIdx_get l c i hc
  have h2 := colIdx_get l c' i hc'
  rw [h1] at h2
  exact Option.some.inj h2

theorem colIdx_append_of_ne (l : List String) (a c : String) (h : c ≠ a) :
    colIdx (l ++ [a]) c = colIdx l c := by
  induction l with
  | nil =>
    have hac : ¬a = c := fun hh => h hh.symm
    simp [colIdx, hac]
  | cons b bs ih => by_cases hb : b = c <;> simp [colIdx, hb, ih]

theorem colIdx_append_self (l : List String) (c : String) (h : c ∉ l) :
    colIdx (l ++ [c]) c = some l.length := by
  induction l with
  | nil => simp [colIdx]
  | cons b bs ih =>
    simp only [List.mem_cons, not_or] at h
    have hbc : ¬b = c := fun hh => h.1 hh.symm
    simp [colIdx, hbc, ih h.2]

theorem getD_set_ne {α : Type} (l : List α) (i j : Nat) (v d : α) (h : i ≠ j) :
    (l.set i v).getD j d = l.getD j d := by
  simp [List.getElem?_set_ne h]

theorem getD_set_self {α : Type} (l : List α) (i : Nat) (v d : α)
    (h : i < l.length) : (l.set i v).getD i d = v := by
  simp [List.getElem?_set_self h]

theorem getD_append_length {α : Type} (l : List α) (a d : α) :
    (l ++ [a]).getD l.length d = a := by
  simp [List.getElem?_concat_length]

/-- Writing back the value a position already holds leaves the list unchanged. -/
theorem set_getElem_self {α : Type} (l : List α) (i : Nat) (v : α)
    (h : l[i]? = some v) : l.set i v = l := by
  induction l generalizing i with
  | nil => simp
  | cons a as ih =>
    cases i with
    | zero => simp at h; simp [h]
    | succ j => simp at h; simp [List.set, ih j h]

/-! ### NaN-aware cell arithmetic (pandas semantics)

Binary arithmetic on cells propagates `NaN`; comparisons against a constant
are `False` on `NaN` (so `.astype(int)` indicator columns read 0 there);
`mean(axis=1)`/`sum(axis=1)` skip `NaN` (`sum` of an all-NaN row is 0). -/

/-- Addition propagating `NaN`. -/
def cAdd : Cell → Cell → Cell
  | some x, some y => some (x + y)
  | _, _ => none

/-- Subtraction propagating `NaN`. -/
def cSub : Cell → Cell → Cell
  | some x, some y => some (x - y)
  | _, _ => none

/-- Multiplication propagating `NaN`. -/
def cMul : Cell → Cell → Cell
  | some x, some y => some (x * y)
  | _, _ => none

/-- Scale a cell by a rational constant (`NaN` stays `NaN`). -/
def cScale (k : ℚ) : Cell → Cell
  | some x => some (k * x)
  | none => none

/-- Comparison `series > t`: `False` (hence 0) on `NaN`. -/
def cGT (a : Cell) (t : ℚ) : Bool :=
  match a with
  | some x => decide (t < x)
  | none => false

/-- Comparison `series < t`: `False` (hence 0) on `NaN`. -/
def cLT (a : Cell) (t : ℚ) : Bool :=
  match a with
  | some x => decide (x < t)
  | none => false

/-- Comparison `series >= t`: `False` (hence 0) on `NaN`. -/
def cGE (a : Cell) (t : ℚ) : Bool :=
  match a with
  | some x => decide (t ≤ x)
  | none => false

/-- Boolean→int cast used by `.astype(int)`. -/
def b2q (b : Bool) : ℚ := if b then 1 else 0

/-- Row mean `mean(axis=1)` with `skipna=True`: `NaN` iff every operand is missing. -/
def naMean (l : List Cell) : Cell :=
  let p := l.filterMap id
  if p.length = 0 then none else some (p.sum / p.length)

/-- Row sum `sum(axis=1)` with `skipna=True`, `min_count=0`: an all-NaN row sums to 0. -/
def naSum (l : List Cell) : ℚ :=
  (l.filterMap id).sum

/-! ### Feature engineering (`DataProcessor._engineer_features`, lines 85-149)

Each conditional block of `_engineer_features` is transcribed as one `Rule`:
the derived column's name, the raw columns it consults (`reads`), the
presence condition on those columns (`guard`, applied to the presence flags
of `reads` in order), and the derived cell (`value`, applied to the looked-up
cells of `reads` in order).  `engineerF` folds the rules over the frame in
source order, mirroring the straight-line Python function (which first takes
`df.copy()`; the copy is implicit here since everything is pure). -/

structure Rule where
  name : String
  reads : List String
  guard : List Bool → Bool
  value : List Cell → Cell

/-- Guard for blocks requiring every listed column (plain `and` of `in df.columns`). -/
def allPresent (bs : List Bool) : Bool := bs.all id

/-- Guard for blocks requiring at least one listed column (`len(available) > 0`). -/
def anyPresent (bs : List Bool) : Bool := bs.any id

/-- The engineered-feature rules, in source order (lines 97-145). -/
def RULES : List Rule := [
  -- line 98: df['pm25_aqi_interaction'] = df['pm25'] * df['aqi']
  ⟨"pm25_aqi_interaction", ["pm25", "aqi"], allPresent,
    fun vs => match vs with | [a, b] => cMul a b | _ => none⟩,
  -- line 103: heat index approximation: temperature + 0.5 * humidity
  ⟨"heat_index", ["temperature", "humidity"], allPresent,
    fun vs => match vs with | [t, h] => cAdd t (cScale (1/2) h) | _ => none⟩,
  -- line 106: df['temp_squared'] = df['temperature'] ** 2
  ⟨"temp_squared", ["temperature"], allPresent,
    fun vs => match vs with | [t] => cMul t t | _ => none⟩,
  -- line 107: (df['temperature'] > 35).astype(int)
  ⟨"extreme_heat", ["temperature"], allPresent,
    fun vs => match vs with | [t] => some (b2q (cGT t 35)) | _ => none⟩,
  -- line 108: (df['temperature'] < 0).astype(int)
  ⟨"extreme_cold", ["temperature"], allPresent,
    fun vs => match vs with | [t] => some (b2q (cLT t 0)) | _ => none⟩,
  -- lines 111-114: mean of the available pollutant columns
  ⟨"air_quality_composite", ["pm25", "pm10", "ozone", "no2", "so2", "co"],
    anyPresent, fun vs => naMean vs⟩,
  -- line 118: df['age_squared'] = df['age'] ** 2
  ⟨"age_squared", ["age"], allPresent,
    fun vs => match vs with | [a] => cMul a a | _ => none⟩,
  -- line 119: (df['age'] >= 65).astype(int)
  ⟨"elderly", ["age"], allPresent,
    fun vs => match vs with | [a] => some (b2q (cGE a 65)) | _ => none⟩,
  -- line 120: (df['age'] < 18).astype(int)
  ⟨"child", ["age"], allPresent,
    fun vs => match vs with | [a] => some (b2q (cLT a 18)) | _ => none⟩,
  -- line 123: (df['bmi'] >= 30).astype(int)
  ⟨"obese", ["bmi"], allPresent,
    fun vs => match vs with | [b] => some (b2q (cGE b 30)) | _ => none⟩,
  -- line 124: (df['bmi'] < 18.5).astype(int)
  ⟨"underweight", ["bmi"], allPresent,
    fun vs => match vs with | [b] => some (b2q (cLT b (37/2))) | _ => none⟩,
  -- lines 127-130: (sys >= 140) | (dia >= 90), cast to int
  ⟨"hypertension", ["blood_pressure_systolic", "blood_pressure_diastolic"],
    allPresent,
    fun vs => match vs with
      | [s, d] => some (b2q (cGE s 140 || cGE d 90))
      | _ => none⟩,
  -- line 131: pulse pressure = systolic - diastolic
  ⟨"pulse_pressure", ["blood_pressure_systolic", "blood_pressure_diastolic"],
    allPresent,
    fun vs => match vs with | [s, d] => cSub s d | _ => none⟩,
  -- lines 134-137: sum of the available comorbidity flags
  ⟨"comorbidity_count",
    ["has_asthma", "has_copd", "has_heart_disease", "has_diabetes"],
    anyPresent, fun vs => some (naSum vs)⟩,
  -- line 141: smoker - exercise_frequency / 7
  ⟨"lifestyle_risk", ["smoker", "exercise_frequency"], allPresent,
    fun vs => match vs with | [s, e] => cSub s (cScale (1/7) e) | _ => none⟩,
  -- line 145: pm25 * (age / 100)
  ⟨"exposure_vulnerability", ["pm25", "age"], allPresent,
    fun vs => match vs with | [p, a] => cMul p (cScale (1/100) a) | _ => none⟩]

/-- Effect of one rule on the column list: a fired rule appends its name
if absent (pandas column assignment), otherwise leaves the schema as is. -/
def applyRuleCols (cols : List String) (r : Rule) : List String :=
  if r.guard (r.reads.map (fun c => decide (c ∈ cols))) then
    (if r.name ∈ cols then cols else cols ++ [r.name])
  else cols

/-- Effect of one rule on one row (positional cells w.r.t. `cols`). -/
def applyRuleRow (cols : List String) (r : Rule) (row : Row) : Row :=
  if r.guard (r.reads.map (fun c => decide (c ∈ cols))) then
    (let v := r.value (r.reads.map (getVal cols row))
     match colIdx cols r.name with
     | some i => row.set i v
     | none => row ++ [v])
  else row

/-- Effect of one rule on the whole frame. -/
def applyRule (d : DF) (r : Rule) : DF :=
  ⟨applyRuleCols d.cols r, d.rows.map (applyRuleRow d.cols r)⟩

/-- Column list after a rule sequence. -/
def engCols : List Rule → List String → List String
  | [], cols => cols
  | r :: rs, cols => engCols rs (applyRuleCols cols r)

/-- One row after a rule sequence. -/
def engRow : List Rule → List String → Row → Row
  | [], _, row => row
  | r :: rs, cols, row => engRow rs (applyRuleCols cols r) (applyRuleRow cols r row)

/-- Source `DataProcessor._engineer_features` (lines 85-149): fold the rules over
the frame in source order. -/
def engineerF (d : DF) : DF := RULES.foldl applyRule d

/-- Engineering acts row-wise: the frame-level fold equals a new column list
(a function of the input schema only) plus a per-row map. -/
theorem engineer_map_form (rules : List Rule) (d : DF) :
    rules.foldl applyRule d =
      ⟨engCols rules d.cols, d.rows.map (engRow rules d.cols)⟩ := by
  induction rules generalizing d with
  | nil => simp [engCols, engRow]
  | cons r rs ih =>
    rw [List.foldl_cons]
    rw [ih (applyRule d r)]
    simp [applyRule, engCols, engRow, List.map_map]

/-! ### Structural properties of the engineering pass -/

/-- The derived column names are pairwise distinct. -/
def NamesNodup (rules : List Rule) : Prop := (rules.map Rule.name).Nodup

/-- No rule ever reads a column that any rule writes: every `value` is a
function of raw columns only. -/
def ReadsDisjoint (rules : List Rule) : Prop :=
  ∀ r ∈ rules, ∀ r' ∈ rules, r.name ∉ r'.reads

theorem rules_names_nodup : NamesNodup RULES := by
  unfold NamesNodup RULES
  decide

theorem rules_reads_disjoint : ReadsDisjoint RULES := by
  unfold ReadsDisjoint RULES
  decide

theorem mem_iff_colIdx (l : List String) (c : String) :
    c ∈ l ↔ colIdx l c ≠ none := by
  rw [ne_eq, colIdx_none_iff, not_not]

theorem getD_to_getElem? {α : Type} (l : List α) (i : Nat) (v d : α)
    (hlt : i < l.length) (h : l.getD i d = v) : l[i]? = some v := by
  rw [List.getD_eq_getElem l d hlt] at h
  rw [List.getElem?_eq_getElem hlt, h]

theorem applyRuleCols_colIdx_stable (cols : List String) (r : Rule)
    (c : String) (hc : c ≠ r.name) :
    colIdx (applyRuleCols cols r) c = colIdx cols c := by
  unfold applyRuleCols
  split
  · split
    · rfl
    · exact colIdx_append_of_ne cols r.name c hc
  · rfl

theorem applyRuleCols_mem_stable (cols : List String) (r : Rule)
    (c : String) (hc : c ≠ r.name) :
    c ∈ applyRuleCols cols r ↔ c ∈ cols := by
  rw [mem_iff_colIdx, mem_iff_colIdx, applyRuleCols_colIdx_stable cols r c hc]

theorem applyRule_rect (cols : List String) (row : Row) (r : Rule)
    (h : row.length = cols.length) :
    (applyRuleRow cols r row).length = (applyRuleCols cols r).length := by
  unfold applyRuleRow applyRuleCols
  split
  · rename_i hg
    rcases hmem : colIdx cols r.name with _ | i
    · have : r.name ∉ cols := (colIdx_none_iff cols r.name).mp hmem
      simp [hmem, this, h]
    · have : r.name ∈ cols := by
        rw [mem_iff_colIdx, hmem]; simp
      simp [hmem, this, h]
  · exact h

theorem engCols_length_mono (rules : List Rule) (cols : List String) :
    cols.length ≤ (engCols rules cols).length := by
  induction rules generalizing cols with
  | nil => simp [engCols]
  | cons r rs ih =>
    refine le_trans ?_ (ih (applyRuleCols cols r))
    unfold applyRuleCols
    split
    · split
      · exact le_refl _
      · simp
    · exact le_refl _

theorem eng_rect (rules : List Rule) (cols : List String) (row : Row)
    (h : row.length = cols.length) :
    (engRow rules cols row).length = (engCols rules cols).length := by
  induction rules generalizing cols row with
  | nil => simpa [engCols, engRow]
  | cons r rs ih =>
    exact ih (applyRuleCols cols r) (applyRuleRow cols r row)
      (applyRule_rect cols row r h)

theorem applyRule_getVal_stable (cols : List String) (row : Row) (r : Rule)
    (c : String) (hc : c ≠ r.name) (hrect : row.length = cols.length) :
    getVal (applyRuleCols cols r) (applyRuleRow cols r row) c =
      getVal cols row c := by
  unfold applyRuleCols applyRuleRow
  split
  · rcases hname : colIdx cols r.name with _ | i
    · -- new column appended at the end
      have hnm : r.name ∉ cols := (colIdx_none_iff cols r.name).mp hname
      simp only [hnm, if_false, hname]
      unfold getVal
      rw [colIdx_append_of_ne cols r.name c hc]
      rcases hcol : colIdx cols c with _ | j
      · rfl
      · exact List.getD_append row _ none j (hrect ▸ colIdx_lt_length cols c j hcol)
    · -- existing column overwritten in place
      have hnm : r.name ∈ cols := by rw [mem_iff_colIdx, hname]; simp
      simp only [hnm, if_true, hname]
      unfold getVal
      rcases hcol : colIdx cols c with _ | j
      · rfl
      · have hne : i ≠ j := by
          intro hij
          rw [← hij] at hcol
          exact hc (colIdx_inj cols c r.name i hcol hname)
        exact getD_set_ne row i j _ none hne
  · rfl

theorem eng_stable (rules : List Rule) (cols : List String) (row : Row)
    (c : String) (hrect : row.length = cols.length)
    (hc : ∀ r ∈ rules, c ≠ r.name) :
    colIdx (engCols rules cols) c = colIdx cols c ∧
      getVal (engCols rules cols) (engRow rules cols row) c = getVal cols row c := by
  induction rules generalizing cols row with
  | nil => exact ⟨rfl, rfl⟩
  | cons r rs ih =>
    have hhead : c ≠ r.name := hc r (List.mem_cons_self r rs)
    have htail : ∀ r' ∈ rs, c ≠ r'.name :=
      fun r' hr' => hc r' (List.mem_cons_of_mem r hr')
    have hrect' := applyRule_rect cols row r hrect
    obtain ⟨h1, h2⟩ := ih (applyRuleCols cols r) (applyRuleRow cols r row) hrect' htail
    refine ⟨?_, ?_⟩
    · rw [show engCols (r :: rs) cols = engCols rs (applyRuleCols cols r) from rfl,
        h1, applyRuleCols_colIdx_stable cols r c hhead]
    · rw [show engRow (r :: rs) cols row =
          engRow rs (applyRuleCols cols r) (applyRuleRow cols r row) from rfl,
        show engCols (r :: rs) cols = engCols rs (applyRuleCols cols r) from rfl,
        h2, applyRule_getVal_stable cols row r c hhead hrect]

theorem eng_mem_stable (rules : List Rule) (cols : List String)
    (c : String) (hc : ∀ r ∈ rules, c ≠ r.name) :
    c ∈ engCols rules cols ↔ c ∈ cols := by
  rw [mem_iff_colIdx, mem_iff_colIdx,
    (eng_stable rules cols (List.replicate cols.length none) c (by simp) hc).1]

theorem applyRule_written (cols : List String) (row : Row) (r : Rule)
    (hrect : row.length = cols.length)
    (hg : r.guard (r.reads.map (fun c => decide (c ∈ cols))) = true) :
    ∃ i, colIdx (applyRuleCols cols r) r.name = some i ∧
      (applyRuleRow cols r row)[i]? =
        some (r.value (r.reads.map (getVal cols row))) := by
  unfold applyRuleCols applyRuleRow
  rw [hg]
  rcases hname : colIdx cols r.name with _ | i
  · have hnm : r.name ∉ cols := (colIdx_none_iff cols r.name).mp hname
    refine ⟨cols.length, ?_, ?_⟩
    · simp only [hnm, if_false, if_true]
      exact colIdx_append_self cols r.name hnm
    · simp only [if_true, hname]
      rw [← hrect]
      exact List.getElem?_concat_length row _
  · have hnm : r.name ∈ cols := by rw [mem_iff_colIdx, hname]; simp
    refine ⟨i, ?_, ?_⟩
    · simp only [hnm, if_true, hname]
    · simp only [if_true, hname]
      exact List.getElem?_set_self (hrect ▸ colIdx_lt_length cols r.name i hname)

theorem eng_written (rules : List Rule) (cols : List String) (row : Row)
    (r : Rule) (hmem : r ∈ rules) (hrect : row.length = cols.length)
    (hnodup : NamesNodup rules) (hdisj : ReadsDisjoint rules)
    (hg : r.guard (r.reads.map (fun c => decide (c ∈ cols))) = true) :
    ∃ i, colIdx (engCols rules cols) r.name = some i ∧
      (engRow rules cols row)[i]? =
        some (r.value (r.reads.map (getVal cols row))) := by
  induction rules generalizing cols row with
  | nil => cases hmem
  | cons r0 rs ih =>
    have hrect' := applyRule_rect cols row r0 hrect
    rcases List.mem_cons.mp hmem with rfl | hmem'
    · -- the head rule writes its cell; the tail does not touch it
      obtain ⟨i, hci, hval⟩ := applyRule_written cols row r hrect hg
      set v := r.value (r.reads.map (getVal cols row)) with hv
      have hname_tail : ∀ r' ∈ rs, r.name ≠ r'.name := by
        intro r' hr'
        have := (List.nodup_cons.mp hnodup).1
        intro hEq
        exact this (hEq ▸ List.mem_map_of_mem Rule.name hr')
      obtain ⟨hstab_idx, hstab_val⟩ :=
        eng_stable rs (applyRuleCols cols r) (applyRuleRow cols r row)
          r.name hrect' hname_tail
      have hlt : i < (applyRuleRow cols r row).length :=
        (List.getElem?_eq_some.mp hval).1
      have hlt2 : i < (engRow rs (applyRuleCols cols r) (applyRuleRow cols r row)).length := by
        rw [eng_rect rs _ _ hrect']
        exact lt_of_lt_of_le (hrect' ▸ hlt) (engCols_length_mono rs _)
      have hidx : colIdx (engCols rs (applyRuleCols cols r)) r.name = some i := by
        rw [hstab_idx, hci]
      have hgetD : getVal (applyRuleCols cols r) (applyRuleRow cols r row) r.name = v := by
        unfold getVal
        rw [hci]
        simp [hval]
      have hfinal : getVal (engCols rs (applyRuleCols cols r))
          (engRow rs (applyRuleCols cols r) (applyRuleRow cols r row)) r.name = v := by
        rw [hstab_val, hgetD]
      refine ⟨i, hidx, ?_⟩
      have hD : List.getD (engRow rs (applyRuleCols cols r)
          (applyRuleRow cols r row)) i none = v := by
        unfold getVal at hfinal
        rw [hidx] at hfinal
        simpa using hfinal
      exact getD_to_getElem? _ i v none hlt2 hD
    · -- the rule sits in the tail: transport the hypotheses over the head step
      have hno_read : ∀ c ∈ r.reads, c ≠ r0.name := by
        intro c hcr hEq
        exact hdisj r0 (List.mem_cons_self r0 rs) r hmem (hEq ▸ hcr)
      have hg' : r.guard (r.reads.map (fun c => decide (c ∈ applyRuleCols cols r0))) = true := by
        have : r.reads.map (fun c => decide (c ∈ applyRuleCols cols r0)) =
            r.reads.map (fun c => decide (c ∈ cols)) := by
          apply List.map_congr_left
          intro c hcr
          simp [applyRuleCols_mem_stable cols r0 c (hno_read c hcr)]
        rw [this]; exact hg
      have hnodup' : NamesNodup rs := (List.nodup_cons.mp hnodup).2
      have hdisj' : ReadsDisjoint rs := fun a ha b hb =>
        hdisj a (List.mem_cons_of_mem r0 ha) b (List.mem_cons_of_mem r0 hb)
      obtain ⟨i, hci, hval⟩ :=
        ih (applyRuleCols cols r0) (applyRuleRow cols r0 row) hmem' hrect' hnodup' hdisj' hg'
      have hmapeq : r.reads.map (getVal (applyRuleCols cols r0) (applyRuleRow cols r0 row)) =
          r.reads.map (getVal cols row) := by
        apply List.map_congr_left
        intro c hcr
        exact applyRule_getVal_stable cols row r0 c (hno_read c hcr) hrect
      refine ⟨i, hci, ?_⟩
      show (engRow rs (applyRuleCols cols r0) (applyRuleRow cols r0 row))[i]? =
        some (r.value (r.reads.map (getVal cols row)))
      rw [hval, hmapeq]

/-- After a full pass, every rule is a fixpoint: its guard evaluates the same,
its column exists, and rewriting its cell reproduces the stored value. -/
theorem eng_fix (rules : List Rule) (cols : List String) (row : Row)
    (hrect : row.length = cols.length)
    (hnodup : NamesNodup rules) (hdisj : ReadsDisjoint rules) :
    ∀ r ∈ rules,
      applyRuleCols (engCols rules cols) r = engCols rules cols ∧
        applyRuleRow (engCols rules cols) r (engRow rules cols row) =
          engRow rules cols row := by
  intro r hr
  have hno_read : ∀ c ∈ r.reads, ∀ r' ∈ rules, c ≠ r'.name := by
    intro c hcr r' hr' hEq
    exact hdisj r' hr' r hr (hEq ▸ hcr)
  have hguard_eq : r.reads.map (fun c => decide (c ∈ engCols rules cols)) =
      r.reads.map (fun c => decide (c ∈ cols)) := by
    apply List.map_congr_left
    intro c hcr
    simp [eng_mem_stable rules cols c (hno_read c hcr)]
  by_cases hg : r.guard (r.reads.map (fun c => decide (c ∈ cols))) = true
  · obtain ⟨i, hci, hval⟩ := eng_written rules cols row r hr hrect hnodup hdisj hg
    have hmem : r.name ∈ engCols rules cols := by
      rw [mem_iff_colIdx, hci]; simp
    have hvals_eq : r.reads.map (getVal (engCols rules cols) (engRow rules cols row)) =
        r.reads.map (getVal cols row) := by
      apply List.map_congr_left
      intro c hcr
      exact (eng_stable rules cols row c hrect (hno_read c hcr)).2
    constructor
    · unfold applyRuleCols
      rw [hguard_eq, hg]
      simp [hmem]
    · unfold applyRuleRow
      rw [hguard_eq, hg]
      simp only [if_true, hci, hvals_eq]
      exact set_getElem_self _ i _ hval
  · have hg' : ¬ r.guard (r.reads.map (fun c => decide (c ∈ engCols rules cols))) = true := by
      rw [hguard_eq]; exact hg
    constructor
    · unfold applyRuleCols
      rw [if_neg hg']
    · unfold applyRuleRow
      rw [if_neg hg']

/-- Folding a rule list over a frame that is a fixpoint of each rule changes nothing. -/
theorem eng_of_fix (rules : List Rule) (cols : List String) (row : Row)
    (h : ∀ r ∈ rules, applyRuleCols cols r = cols ∧ applyRuleRow cols r row = row) :
    engCols rules cols = cols ∧ engRow rules cols row = row := by
  induction rules with
  | nil => exact ⟨rfl, rfl⟩
  | cons r rs ih =>
    have hr := h r (List.mem_cons_self r rs)
    have htail : ∀ r' ∈ rs, applyRuleCols cols r' = cols ∧ applyRuleRow cols r' row = row :=
      fun r' hr' => h r' (List.mem_cons_of_mem r hr')
    have e1 : engCols (r :: rs) cols = engCols rs cols := by
      show engCols rs (applyRuleCols cols r) = engCols rs cols
      rw [hr.1]
    have e2 : engRow (r :: rs) cols row = engRow rs cols row := by
      show engRow rs (applyRuleCols cols r) (applyRuleRow cols r row) = engRow rs cols row
      rw [hr.1, hr.2]
    rw [e1, e2]
    exact ih htail

/-- Row-level idempotence of a rule pass. -/
theorem eng_idem_row (rules : List Rule) (cols : List String) (row : Row)
    (hrect : row.length = cols.length)
    (hnodup : NamesNodup rules) (hdisj : ReadsDisjoint rules) :
    engCols rules (engCols rules cols) = engCols rules cols ∧
      engRow rules (engCols rules cols) (engRow rules cols row) =
        engRow rules cols row :=
  eng_of_fix rules (engCols rules cols) (engRow rules cols row)
    (eng_fix rules cols row hrect hnodup hdisj)

/-! ### The derived-column set as a function of prerequisite presence -/

/-- Names of the rules whose presence condition holds on a schema
(evaluated on the raw schema; by `ReadsDisjoint` this matches the guards the
pass actually evaluates on the evolving frame). -/
def firedNames (rules : List Rule) (cols : List String) : List String :=
  (rules.filter (fun r => r.guard (r.reads.map (fun c => decide (c ∈ cols))))).map Rule.name

/-- All prerequisite raw columns consulted by the engineering rules. -/
def PREREQS : List String := RULES.foldr (fun r acc => r.reads ++ acc) []

theorem rules_reads_subset_prereqs :
    ∀ r ∈ RULES, ∀ c ∈ r.reads, c ∈ PREREQS := by
  unfold RULES PREREQS
  decide

theorem firedNames_congr (rules : List Rule) (cols cols' : List String)
    (h : ∀ r ∈ rules, ∀ c ∈ r.reads, (c ∈ cols ↔ c ∈ cols')) :
    firedNames rules cols = firedNames rules cols' := by
  unfold firedNames
  congr 1
  apply List.filter_congr
  intro r hr
  have : r.reads.map (fun c => decide (c ∈ cols)) =
      r.reads.map (fun c => decide (c ∈ cols')) := by
    apply List.map_congr_left
    intro c hcr
    simp [h r hr c hcr]
  rw [this]

theorem mem_firedNames_sub (rules : List Rule) (cols : List String)
    (c : String) (h : c ∈ firedNames rules cols) : c ∈ rules.map Rule.name := by
  unfold firedNames at h
  obtain ⟨r, hr, rfl⟩ := List.mem_map.mp h
  exact List.mem_map_of_mem Rule.name (List.mem_of_mem_filter hr)

/-- The schema after a pass is the input schema with the fired rules'
names appended (those not already present), in rule order. -/
theorem engCols_append_form (rules : List Rule) (cols : List String)
    (hnodup : NamesNodup rules) (hdisj : ReadsDisjoint rules) :
    engCols rules cols =
      cols ++ (firedNames rules cols).filter (fun c => !decide (c ∈ cols)) := by
  induction rules generalizing cols with
  | nil => simp [engCols, firedNames]
  | cons r rs ih =>
    have hnodup' : NamesNodup rs := (List.nodup_cons.mp hnodup).2
    have hdisj' : ReadsDisjoint rs := fun a ha b hb =>
      hdisj a (List.mem_cons_of_mem r ha) b (List.mem_cons_of_mem r hb)
    by_cases hg : r.guard (r.reads.map (fun c => decide (c ∈ cols))) = true
    · have hfired : firedNames (r :: rs) cols = r.name :: firedNames rs cols := by
        simp [firedNames, List.filter_cons, hg]
      by_cases hmem : r.name ∈ cols
      · -- fired but already present: schema unchanged, the filter drops the name
        have hstep : engCols (r :: rs) cols = engCols rs cols := by
          show engCols rs (applyRuleCols cols r) = engCols rs cols
          unfold applyRuleCols
          rw [hg]
          simp [hmem]
        rw [hstep, hfired, ih cols hnodup' hdisj']
        congr 1
        simp [List.filter_cons, hmem]
      · -- fired and new: appended at the end of the schema
        have hstep : engCols (r :: rs) cols = engCols rs (cols ++ [r.name]) := by
          show engCols rs (applyRuleCols cols r) = engCols rs (cols ++ [r.name])
          unfold applyRuleCols
          rw [hg]
          simp [hmem]
        have hname_tail : ∀ r' ∈ rs, r.name ≠ r'.name := by
          intro r' hr' hEq
          exact (List.nodup_cons.mp hnodup).1 (hEq ▸ List.mem_map_of_mem Rule.name hr')
        have hfired_stable : firedNames rs (cols ++ [r.name]) = firedNames rs cols := by
          apply firedNames_congr
          intro r' hr' c hcr
          have hcne : c ≠ r.name := by
            intro hEq
            exact hdisj r (List.mem_cons_self r rs) r' (List.mem_cons_of_mem r hr') (hEq ▸ hcr)
          simp [List.mem_append, hcne]
        have hfilter_stable :
            (firedNames rs cols).filter (fun c => !decide (c ∈ cols ++ [r.name])) =
              (firedNames rs cols).filter (fun c => !decide (c ∈ cols)) := by
          apply List.filter_congr
          intro c hc
          have hcname : c ≠ r.name := by
            intro hEq
            obtain ⟨r', hr', hr'eq⟩ := List.mem_map.mp (mem_firedNames_sub rs cols c hc)
            exact hname_tail r' hr' ((hr'eq.trans hEq).symm)
          simp [List.mem_append, hcname]
        rw [hstep, ih (cols ++ [r.name]) hnodup' hdisj', hfired_stable, hfilter_stable, hfired]
        simp only [List.filter_cons, hmem, decide_False, Bool.not_false, if_true,
          List.append_assoc, List.singleton_append]
    · have hstep : engCols (r :: rs) cols = engCols rs cols := by
        show engCols rs (applyRuleCols cols r) = engCols rs cols
        unfold applyRuleCols
        rw [if_neg hg]
      have hfired : firedNames (r :: rs) cols = firedNames rs cols := by
        simp [firedNames, List.filter_cons, hg]
      rw [hstep, hfired, ih cols hnodup' hdisj']

/-! ### Imputers and scalers (`sklearn` collaborators of `data_processor.py`)

The repository delegates imputation and scaling to sklearn objects.  These
are modelled at the level the code and spec rely on: a fitted state plus a
row-wise `transform`.
* `SimpleImputer(strategy='median')`: per-column fitted statistics; transform
  replaces each missing cell by its column's statistic.
* `KNNImputer(n_neighbors=5)`: keeps the fit-time data; transform fills a
  missing cell from the nearest fit rows (nan-euclidean distance, uniform
  weights) — crucially it is row-wise: donors come from the fit data, never
  from the other rows of the transformed batch.
* `StandardScaler` / `RobustScaler`: per-column center and scale; transform
  is `(x - center) / scale` elementwise for both kinds. -/

/-- A fitted (or freshly constructed, with empty state) imputer object. -/
inductive Imputer
  | simple (strategy : String) (stats : List ℚ)
  | knn (k : Nat) (fitData : List Row)
  deriving DecidableEq, Repr

/-- A fitted (or freshly constructed, with empty state) scaler object. -/
inductive Scaler
  | standard (center scale : List ℚ)
  | robust (center scale : List ℚ)
  deriving DecidableEq, Repr

/-- Squared nan-euclidean distance between a query row and a fit row
(`none` when they share no observed coordinate, sklearn's "no distance"). -/
def nanDist2 (a b : Row) : Option ℚ :=
  let sq := (a.zip b).filterMap (fun p =>
    match p.1, p.2 with
    | some x, some y => some ((x - y) * (x - y))
    | _, _ => none)
  if sq.length = 0 then none
  else some ((a.length : ℚ) * sq.sum / (sq.length : ℚ))

/-- Order on optional distances: a missing distance sorts last. -/
def distLE : Option ℚ → Option ℚ → Bool
  | some x, some y => decide (x ≤ y)
  | some _, none => true
  | none, some _ => false
  | none, none => true

/-- Insertion by non-decreasing distance to the query row. -/
def insertByDist (q : Row) (fr : Row) : List Row → List Row
  | [] => [fr]
  | x :: xs =>
    if distLE (nanDist2 q fr) (nanDist2 q x) then fr :: x :: xs
    else x :: insertByDist q fr xs

/-- Fit rows sorted by distance to the query row. -/
def sortByDist (q : Row) : List Row → List Row
  | [] => []
  | x :: xs => insertByDist q x (sortByDist q xs)

/-- KNN fill value for coordinate `j` of query row `q`: mean of coordinate
`j` over the `k` nearest fit rows that observe it (0 if there are none). -/
def knnFill (fitData : List Row) (k : Nat) (q : Row) (j : Nat) : ℚ :=
  let cands := fitData.filter (fun fr => (fr.getD j none).isSome)
  let donors := (sortByDist q cands).take k
  let vals := donors.filterMap (fun fr => fr.getD j none)
  if vals.length = 0 then 0 else vals.sum / (vals.length : ℚ)

/-- Row-wise imputer transform. -/
def imputeRow : Imputer → Row → List ℚ
  | .simple _ stats, row => List.zipWith (fun s v => Option.getD v s) stats row
  | .knn k fitData, row =>
    row.mapIdx (fun j v =>
      match v with
      | some x => x
      | none => knnFill fitData k row j)

/-- Row-wise scaler transform: `(x - center) / scale` per column. -/
def scaleRow (sc : Scaler) (x : List ℚ) : List ℚ :=
  match sc with
  | .standard center scale => (x.zip (center.zip scale)).map
      (fun p => (p.1 - p.2.1) / p.2.2)
  | .robust center scale => (x.zip (center.zip scale)).map
      (fun p => (p.1 - p.2.1) / p.2.2)

/-- Row-wise scaler inverse transform: `x * scale + center` per column. -/
def unscaleRow (sc : Scaler) (x : List ℚ) : List ℚ :=
  match sc with
  | .standard center scale => (x.zip (center.zip scale)).map
      (fun p => p.1 * p.2.2 + p.2.1)
  | .robust center scale => (x.zip (center.zip scale)).map
      (fun p => p.1 * p.2.2 + p.2.1)

/-- Python exception kinds relevant to the processor. -/
inductive PyError
  | valueError (msg : String)
  | attributeError (msg : String)
  deriving DecidableEq, Repr

/-- State of a `DataProcessor` instance (`data_processor.py`).

`feature_names` and `target_names` are assigned `None` in `__init__`, so they
are `Option` values that exist from construction.  `fitted_feature_names` is
*never* assigned in `__init__` — it first comes into existence in `fit`
(line 172) — so `none` here models the *absence* of the attribute, and
reading it through `none` models Python's `AttributeError`. -/
structure DataProcessor where
  scaler_type : String
  imputer_type : String
  feature_engineering : Bool
  scaler : Scaler
  imputer : Imputer
  is_fitted : Bool
  feature_names : Option (List String)
  target_names : Option (List String)
  fitted_feature_names : Option (List String)
  deriving DecidableEq, Repr

/-- Scaler selection in `__init__` (lines 65-70). -/
def mkScaler (scaler_type : String) : Except PyError Scaler :=
  if scaler_type = "standard" then .ok (.standard [] [])
  else if scaler_type = "robust" then .ok (.robust [] [])
  else .error (.valueError ("Unknown scaler type: " ++ scaler_type))

/-- Imputer selection in `__init__` (lines 72-77). -/
def mkImputer (imputer_type : String) : Except PyError Imputer :=
  if imputer_type = "simple" then .ok (.simple "median" [])
  else if imputer_type = "knn" then .ok (.knn 5 [])
  else .error (.valueError ("Unknown imputer type: " ++ imputer_type))

/-- Source `DataProcessor.__init__` (lines 46-83): selects scaler then imputer,
raising `ValueError` on an unsupported kind, and initializes the flags. -/
def mkDataProcessor (scaler_type imputer_type : String)
    (feature_engineering : Bool) : Except PyError DataProcessor :=
  match mkScaler scaler_type with
  | .error e => .error e
  | .ok sc =>
    match mkImputer imputer_type with
    | .error e => .error e
    | .ok im => .ok {
        scaler_type := scaler_type
        imputer_type := imputer_type
        feature_engineering := feature_engineering
        scaler := sc
        imputer := im
        is_fitted := false
        feature_names := none
        target_names := none
        fitted_feature_names := none }

/-- Zero-fill of one missing fitted column (`X[feature] = 0`, line 210):
appends (or overwrites) the column with the constant 0. -/
def zeroFillCols (cols : List String) (c : String) : List String :=
  if c ∈ cols then cols else cols ++ [c]

/-- Row part of the zero-fill. -/
def zeroFillRow (cols : List String) (c : String) (row : Row) : Row :=
  if c ∈ cols then
    (match colIdx cols c with
     | some i => row.set i (some 0)
     | none => row)
  else row ++ [some 0]

/-- Frame part of the zero-fill. -/
def zeroFill (d : DF) (c : String) : DF :=
  ⟨zeroFillCols d.cols c, d.rows.map (zeroFillRow d.cols c)⟩

/-- Source `DataProcessor.transform` (lines 188-221).

Returns the transformed matrix *and* the dataframe object the caller passed,
as the caller observes it after the call: `_engineer_features` starts from
`df.copy()`, so with feature engineering enabled the zero-fill lands on the
copy and the caller's frame is returned unchanged; with it disabled the
zero-fill `X[feature] = 0` mutates the caller's frame in place.  The set
difference `set(fitted) - set(columns)` is iterated in fitted-list order
(Python's set iteration order is unspecified; the subsequent reindexing to
`fitted_feature_names` makes the choice invisible in the output).

`missingCols` is `set(fitted) - set(columns)` (line 206), as the ordered
list of fitted columns absent from the schema. -/
def missingCols (fitted cols : List String) : List String :=
  fitted.filter (fun c => !decide (c ∈ cols))

def transformBody (p : DataProcessor) (fitted : List String) (X : DF) :
    List (List ℚ) × DF :=
  let X1 := if p.feature_engineering then engineerF X else X
  let missing := missingCols fitted X1.cols
  let X2 := missing.foldl zeroFill X1
  let ordered := X2.rows.map (fun row => fitted.map (getVal X2.cols row))
  let imputed := ordered.map (imputeRow p.imputer)
  let scaled := imputed.map (scaleRow p.scaler)
  (scaled, if p.feature_engineering then X else X2)

def transform (p : DataProcessor) (X : DF) :
    Except PyError (List (List ℚ) × DF) :=
  if p.is_fitted = false then
    .error (.valueError "DataProcessor must be fitted before transform")
  else
    match p.fitted_feature_names with
    | none => .error (.attributeError "fitted_feature_names")
    | some fitted => .ok (transformBody p fitted X)

/-- Source `DataProcessor.inverse_transform` (lines 236-249). -/
def inverse_transform (p : DataProcessor) (A : List (List ℚ)) :
    Except PyError (List (List ℚ)) :=
  if p.is_fitted = false then
    .error (.valueError "DataProcessor must be fitted before inverse_transform")
  else .ok (A.map (unscaleRow p.scaler))

/-- The record `DataProcessor.save` pickles (lines 251-265). -/
structure SavedProcessor where
  scaler : Scaler
  imputer : Imputer
  scaler_type : String
  imputer_type : String
  feature_engineering : Bool
  is_fitted : Bool
  feature_names : Option (List String)
  fitted_feature_names : List String
  target_names : Option (List String)
  deriving DecidableEq, Repr

/-- Source `DataProcessor.save` (lines 251-265): serializes the state dictionary.
It performs no `is_fitted` check; building the dictionary reads
`self.fitted_feature_names`, which raises `AttributeError` when `fit` (or
`load`) never ran. -/
def save (p : DataProcessor) : Except PyError SavedProcessor :=
  match p.fitted_feature_names with
  | none => .error (.attributeError
      "DataProcessor object has no attribute fitted_feature_names")
  | some l => .ok {
      scaler := p.scaler
      imputer := p.imputer
      scaler_type := p.scaler_type
      imputer_type := p.imputer_type
      feature_engineering := p.feature_engineering
      is_fitted := p.is_fitted
      feature_names := p.feature_names
      fitted_feature_names := l
      target_names := p.target_names }

/-- Well-formedness of a fitted imputer for a given column count: `fit`
(line 175) fits the imputer on the engineered frame, so a simple imputer
carries one statistic per fitted column; a KNN imputer's transform preserves
the row width by construction. -/
def ImputerWidthOK : Imputer → Nat → Prop
  | .simple _ stats, n => stats.length = n
  | .knn _ _, _ => True

/-- Well-formedness of a fitted scaler: one center and one scale per fitted
column (`fit`, line 178). -/
def ScalerWidthOK : Scaler → Nat → Prop
  | .standard center scale, n => center.length = n ∧ scale.length = n
  | .robust center scale, n => center.length = n ∧ scale.length = n

/-! ### Row-wise form of `transform` -/

/-- Column list after zero-filling a list of missing columns. -/
def zfColsList : List String → List String → List String
  | [], cols => cols
  | c :: cs, cols => zfColsList cs (zeroFillCols cols c)

/-- One row after zero-filling a list of missing columns. -/
def zfRowList : List String → List String → Row → Row
  | [], _, row => row
  | c :: cs, cols, row => zfRowList cs (zeroFillCols cols c) (zeroFillRow cols c row)

theorem zf_map_form (cs : List String) (d : DF) :
    cs.foldl zeroFill d = ⟨zfColsList cs d.cols, d.rows.map (zfRowList cs d.cols)⟩ := by
  induction cs generalizing d with
  | nil => simp [zfColsList, zfRowList]
  | cons c cs ih =>
    rw [List.foldl_cons, ih (zeroFill d c)]
    simp [zeroFill, zfColsList, zfRowList, List.map_map]

/-- What `transform` does to a single row, given the input schema: the whole
pipeline (conditional feature engineering, zero-fill of missing fitted
columns, reindexing to the fitted order, imputation, scaling) is a function
of the row itself and the frame's column list only. -/
def transformRow (p : DataProcessor) (fitted : List String)
    (cols : List String) (row : Row) : List ℚ :=
  let cols1 := if p.feature_engineering then engCols RULES cols else cols
  let row1 := if p.feature_engineering then engRow RULES cols row else row
  let missing := missingCols fitted cols1
  scaleRow p.scaler (imputeRow p.imputer
    (fitted.map (getVal (zfColsList missing cols1) (zfRowList missing cols1 row1))))

/-- The caller-visible dataframe after `transform` returns. -/
def transformFrame (p : DataProcessor) (fitted : List String) (X : DF) : DF :=
  if p.feature_engineering then X
  else (missingCols fitted X.cols).foldl zeroFill X

theorem engineerF_map_form (d : DF) :
    engineerF d = ⟨engCols RULES d.cols, d.rows.map (engRow RULES d.cols)⟩ :=
  engineer_map_form RULES d

theorem transformRow_eq_true (p : DataProcessor) (fitted cols : List String)
    (row : Row) (hFE : p.feature_engineering = true) :
    transformRow p fitted cols row =
      scaleRow p.scaler (imputeRow p.imputer (fitted.map
        (getVal (zfColsList (missingCols fitted (engCols RULES cols)) (engCols RULES cols))
          (zfRowList (missingCols fitted (engCols RULES cols)) (engCols RULES cols)
            (engRow RULES cols row))))) := by
  unfold transformRow
  rw [hFE]
  simp only [eq_self_iff_true, if_true]

theorem transformRow_eq_false (p : DataProcessor) (fitted cols : List String)
    (row : Row) (hFE : p.feature_engineering = false) :
    transformRow p fitted cols row =
      scaleRow p.scaler (imputeRow p.imputer (fitted.map
        (getVal (zfColsList (missingCols fitted cols) cols)
          (zfRowList (missingCols fitted cols) cols row)))) := by
  unfold transformRow
  rw [hFE]
  simp only [Bool.false_eq_true, if_false]

set_option maxHeartbeats 1600000 in
theorem transformBody_eq (p : DataProcessor) (fitted : List String) (X : DF) :
    transformBody p fitted X =
      (X.rows.map (transformRow p fitted X.cols), transformFrame p fitted X) := by
  cases hFE : p.feature_engineering with
  | true =>
    unfold transformBody transformFrame
    rw [hFE]
    simp only [if_true]
    rw [engineerF_map_form X, zf_map_form]
    simp only [List.map_map, Prod.mk.injEq]
    refine ⟨?_, trivial⟩
    apply List.map_congr_left
    intro row _
    rw [transformRow_eq_true p fitted X.cols row hFE]
    simp only [Function.comp_apply]
  | false =>
    unfold transformBody transformFrame
    rw [hFE]
    simp only [Bool.false_eq_true, if_false]
    rw [zf_map_form]
    simp only [List.map_map, Prod.mk.injEq]
    refine ⟨?_, trivial⟩
    apply List.map_congr_left
    intro row _
    rw [transformRow_eq_false p fitted X.cols row hFE]
    simp only [Function.comp_apply]

/-- On a fitted processor `transform` succeeds and acts as a per-row map. -/
theorem transform_eq (p : DataProcessor) (X : DF) (fitted : List String)
    (hfit : p.is_fitted = true) (hnames : p.fitted_feature_names = some fitted) :
    transform p X =
      .ok (X.rows.map (transformRow p fitted X.cols), transformFrame p fitted X) := by
  unfold transform
  rw [hfit, hnames]
  rw [if_neg (show ¬(true = false) by decide)]
  show Except.ok (transformBody p fitted X) = _
  rw [transformBody_eq]

/-- Width of an imputed row. -/
theorem imputeRow_length (im : Imputer) (row : Row) (n : Nat)
    (hrow : row.length = n) (him : ImputerWidthOK im n) :
    (imputeRow im row).length = n := by
  cases im with
  | simple strategy stats =>
    unfold imputeRow
    simp only [List.length_zipWith]
    unfold ImputerWidthOK at him
    omega
  | knn k fitData =>
    unfold imputeRow
    simp [hrow]

/-- Width of a scaled row. -/
theorem scaleRow_length (sc : Scaler) (x : List ℚ) (n : Nat)
    (hx : x.length = n) (hsc : ScalerWidthOK sc n) : (scaleRow sc x).length = n := by
  cases sc with
  | standard center scale =>
    unfold scaleRow
    simp only [List.length_map, List.length_zip]
    unfold ScalerWidthOK at hsc
    omega
  | robust center scale =>
    unfold scaleRow
    simp only [List.length_map, List.length_zip]
    unfold ScalerWidthOK at hsc
    omega

/-- Zero-filling a list of genuinely missing, pairwise-distinct columns
appends them to the schema and appends zero cells to every row. -/
theorem zf_fold_new (cs : List String) (X : DF)
    (hnotin : ∀ c ∈ cs, c ∉ X.cols) (hnodup : cs.Nodup) :
    cs.foldl zeroFill X =
      ⟨X.cols ++ cs, X.rows.map (fun row => row ++ List.replicate cs.length (some 0))⟩ := by
  induction cs generalizing X with
  | nil =>
    cases X with
    | mk cols rows => simp
  | cons c cs ih =>
    have hc : c ∉ X.cols := hnotin c (List.mem_cons_self c cs)
    have hstep : zeroFill X c = ⟨X.cols ++ [c], X.rows.map (fun row => row ++ [some 0])⟩ := by
      unfold zeroFill zeroFillCols zeroFillRow
      simp [hc]
    rw [List.foldl_cons, hstep]
    rw [ih ⟨X.cols ++ [c], X.rows.map (fun row => row ++ [some 0])⟩ ?notin ?nodup]
    · simp only [List.map_map]
      congr 1
      · simp
      · apply List.map_congr_left
        intro row _
        simp [List.replicate_succ, List.append_assoc]
    · intro c' hc'
      simp only [List.mem_append, List.mem_singleton, not_or]
      refine ⟨hnotin c' (List.mem_cons_of_mem c hc'), ?_⟩
      intro hEq
      exact (List.nodup_cons.mp hnodup).1 (hEq ▸ hc')
    · exact (List.nodup_cons.mp hnodup).2

theorem transformRow_length (p : DataProcessor) (fitted cols : List String)
    (row : Row) (him : ImputerWidthOK p.imputer fitted.length)
    (hsc : ScalerWidthOK p.scaler fitted.length) :
    (transformRow p fitted cols row).length = fitted.length := by
  cases hFE : p.feature_engineering with
  | true =>
    rw [transformRow_eq_true p fitted cols row hFE]
    exact scaleRow_length _ _ _ (imputeRow_length _ _ _ (by simp) him) hsc
  | false =>
    rw [transformRow_eq_false p fitted cols row hFE]
    exact scaleRow_length _ _ _ (imputeRow_length _ _ _ (by simp) him) hsc

/-- Calling `transform` before `fit` (lines 198-199). -/
theorem transform_unfitted (p : DataProcessor) (X : DF)
    (h : p.is_fitted = false) :
    transform p X = .error (.valueError "DataProcessor must be fitted before transform") := by
  unfold transform
  rw [h, if_pos rfl]

/-- Calling `inverse_transform` before `fit` (lines 246-247). -/
theorem inverse_transform_unfitted (p : DataProcessor) (A : List (List ℚ))
    (h : p.is_fitted = false) :
    inverse_transform p A =
      .error (.valueError "DataProcessor must be fitted before inverse_transform") := by
  unfold inverse_transform
  rw [h, if_pos rfl]

/-- Fields of a freshly constructed processor. -/
theorem mk_ok_fields (st it : String) (fe : Bool) (p : DataProcessor)
    (h : mkDataProcessor st it fe = .ok p) :
    p.is_fitted = false ∧ p.fitted_feature_names = none ∧ p.feature_names = none := by
  unfold mkDataProcessor mkScaler mkImputer at h
  split_ifs at h <;> simp at h <;> rw [← h] <;> exact ⟨rfl, rfl, rfl⟩

/-- Truth of `Except` success, for stating constructibility without binders. -/
def isOkE {α : Type} : Except PyError α → Bool
  | .ok _ => true
  | .error _ => false

/-! ### Claim theorems: data-processing side -/

/-- A fitted processor, as produced by `fit`/`load`: the fitted flag is set,
the fitted column list exists, and the imputer/scaler statistics cover the
fitted columns. -/
def FittedState (p : DataProcessor) (fitted : List String) : Prop :=
  p.is_fitted = true ∧ p.fitted_feature_names = some fitted ∧
    ImputerWidthOK p.imputer fitted.length ∧ ScalerWidthOK p.scaler fitted.length

set_option maxHeartbeats 1600000 in
/-- C1: for every fitted `DataProcessor` and input dataframe, `transform`
reapplies the configured feature engineering, zero-fills the missing fitted
columns, reorders to the fitted order (dropping extras), and applies the
fitted imputer then scaler — the whole pipeline is the per-row map
`transformRow`, so every output row has width equal to the fitted column
count and each row's transformed value is independent of the order of the
rows of `X` (a permutation of the input rows permutes the output rows the
same way). -/
theorem claim_C1_transform_pipeline (p : DataProcessor) (X : DF)
    (fitted : List String) (hf : FittedState p fitted) :
    transform p X =
      .ok (X.rows.map (transformRow p fitted X.cols), transformFrame p fitted X)
    ∧ (∀ v ∈ X.rows.map (transformRow p fitted X.cols), v.length = fitted.length)
    ∧ (∀ Y : DF, Y.cols = X.cols → Y.rows.Perm X.rows →
        ∀ out2 frame2, transform p Y = .ok (out2, frame2) →
          out2.Perm (X.rows.map (transformRow p fitted X.cols))) := by
  obtain ⟨hfit, hnames, him, hsc⟩ := hf
  refine ⟨transform_eq p X fitted hfit hnames, ?_, ?_⟩
  · intro v hv
    obtain ⟨row, _, rfl⟩ := List.mem_map.mp hv
    exact transformRow_length p fitted X.cols row him hsc
  · intro Y hcols hperm out2 frame2 htr
    rw [transform_eq p Y fitted hfit hnames] at htr
    have h1 : out2 = Y.rows.map (transformRow p fitted Y.cols) :=
      (Prod.mk.injEq _ _ _ _ |>.mp (Except.ok.inj htr).symm).1
    rw [h1, hcols]
    exact hperm.map (transformRow p fitted X.cols)

set_option maxHeartbeats 1600000 in
/-- C4: feature engineering is idempotent on rectangular frames (a second
application changes neither columns nor values), the set of derived columns
computed depends only on which prerequisite raw columns are present, and the
output schema is the input schema plus exactly the fired derived names not
already present. -/
theorem claim_C4_engineer_idempotent (X Y : DF)
    (hrect : ∀ row ∈ X.rows, row.length = X.cols.length) :
    engineerF (engineerF X) = engineerF X
    ∧ ((∀ c ∈ PREREQS, (c ∈ X.cols ↔ c ∈ Y.cols)) →
        firedNames RULES X.cols = firedNames RULES Y.cols)
    ∧ (engineerF X).cols =
        X.cols ++ (firedNames RULES X.cols).filter (fun c => !decide (c ∈ X.cols)) := by
  have hcols : engCols RULES (engCols RULES X.cols) = engCols RULES X.cols :=
    (eng_of_fix RULES (engCols RULES X.cols)
      (engRow RULES X.cols (List.replicate X.cols.length none))
      (eng_fix RULES X.cols (List.replicate X.cols.length none)
        (by simp) rules_names_nodup rules_reads_disjoint)).1
  have hrows : (X.rows.map (engRow RULES X.cols)).map
      (engRow RULES (engCols RULES X.cols)) = X.rows.map (engRow RULES X.cols) := by
    rw [List.map_map]
    apply List.map_congr_left
    intro row hrow
    rw [Function.comp_apply]
    exact (eng_idem_row RULES X.cols row (hrect row hrow)
      rules_names_nodup rules_reads_disjoint).2
  refine ⟨?_, ?_, ?_⟩
  · rw [engineerF_map_form X]
    rw [engineerF_map_form ⟨engCols RULES X.cols, X.rows.map (engRow RULES X.cols)⟩]
    rw [DF.mk.injEq]
    dsimp only
    exact ⟨hcols, hrows⟩
  · intro hagree
    apply firedNames_congr
    intro r hr c hcr
    exact hagree c (rules_reads_subset_prereqs r hr c hcr)
  · rw [engineerF_map_form X]
    dsimp only
    exact engCols_append_form RULES X.cols rules_names_nodup rules_reads_disjoint

set_option maxHeartbeats 1600000 in
/-- C9: with feature engineering enabled, `transform` never mutates the
caller's dataframe (the zero-fill lands on the engineered copy); with it
disabled and fitted columns missing, the zero-fill mutates the caller's
frame in place, appending zero-filled columns. -/
theorem claim_C9_caller_frame (p : DataProcessor) (X : DF)
    (fitted : List String) (hfit : p.is_fitted = true)
    (hnames : p.fitted_feature_names = some fitted) (hnodup : fitted.Nodup) :
    (p.feature_engineering = true →
      ∀ out frame, transform p X = .ok (out, frame) → frame = X)
    ∧ (p.feature_engineering = false →
        ∀ out frame, transform p X = .ok (out, frame) →
          frame.cols = X.cols ++ missingCols fitted X.cols
          ∧ frame.rows = X.rows.map
              (fun row => row ++ List.replicate (missingCols fitted X.cols).length (some 0))
          ∧ (missingCols fitted X.cols ≠ [] → frame ≠ X)) := by
  have hmiss_notin : ∀ c ∈ missingCols fitted X.cols, c ∉ X.cols := by
    intro c hc
    have := List.of_mem_filter hc
    simpa using this
  have hmiss_nodup : (missingCols fitted X.cols).Nodup := List.Nodup.filter _ hnodup
  constructor
  · intro hFE out frame htr
    rw [transform_eq p X fitted hfit hnames] at htr
    have h2 : frame = transformFrame p fitted X :=
      (Prod.mk.injEq _ _ _ _ |>.mp (Except.ok.inj htr).symm).2
    rw [h2]
    unfold transformFrame
    rw [hFE]
    rfl
  · intro hFE out frame htr
    rw [transform_eq p X fitted hfit hnames] at htr
    have h2 : frame = transformFrame p fitted X :=
      (Prod.mk.injEq _ _ _ _ |>.mp (Except.ok.inj htr).symm).2
    have hframe : frame = (missingCols fitted X.cols).foldl zeroFill X := by
      rw [h2]
      unfold transformFrame
      rw [hFE]
      rfl
    rw [hframe, zf_fold_new (missingCols fitted X.cols) X hmiss_notin hmiss_nodup]
    refine ⟨rfl, rfl, ?_⟩
    intro hne hEq
    have hc : X.cols ++ missingCols fitted X.cols = X.cols := congrArg DF.cols hEq
    have hlen := congrArg List.length hc
    simp only [List.length_append] at hlen
    have : (missingCols fitted X.cols).length = 0 := by omega
    exact hne (List.eq_nil_of_length_eq_zero this)

/-- C7: `DataProcessor` construction succeeds exactly for scaler kind
`standard`/`robust` and imputer kind `simple`/`knn`, raising `ValueError`
otherwise; on success the corresponding scaler (z-score or robust) and
imputer (median strategy, or KNN with `k = 5`) are installed and the
processor starts unfitted. -/
theorem claim_C7_constructor_validation (st it : String) (fe : Bool) :
    ((isOkE (mkDataProcessor st it fe) = true) ↔
      ((st = "standard" ∨ st = "robust") ∧ (it = "simple" ∨ it = "knn")))
    ∧ (∀ p, mkDataProcessor st it fe = .ok p →
        p.is_fitted = false
        ∧ (st = "standard" → p.scaler = .standard [] [])
        ∧ (st = "robust" → p.scaler = .robust [] [])
        ∧ (it = "simple" → p.imputer = .simple "median" [])
        ∧ (it = "knn" → p.imputer = .knn 5 [])) := by
  unfold mkDataProcessor mkScaler mkImputer isOkE
  by_cases h1 : st = "standard" <;> by_cases h2 : st = "robust" <;>
    by_cases h3 : it = "simple" <;> by_cases h4 : it = "knn" <;>
    simp_all

/-- C10: `save` on a never-fitted processor fails with `AttributeError`
(the serialized `fitted_feature_names` only comes into existence in `fit`),
an unguarded failure — unlike `transform` and `inverse_transform`, which
explicitly check `is_fitted` and raise a guarded `ValueError`. -/
theorem claim_C10_save_unfitted (st it : String) (fe : Bool) (p : DataProcessor)
    (h : mkDataProcessor st it fe = .ok p) :
    save p = .error (.attributeError
        "DataProcessor object has no attribute fitted_feature_names")
    ∧ (∀ X, transform p X =
        .error (.valueError "DataProcessor must be fitted before transform"))
    ∧ (∀ A, inverse_transform p A =
        .error (.valueError "DataProcessor must be fitted before inverse_transform")) := by
  obtain ⟨hfit, hnames, _⟩ := mk_ok_fields st it fe p h
  refine ⟨?_, ?_, ?_⟩
  · unfold save
    rw [hnames]
  · intro X
    exact transform_unfitted p X hfit
  · intro A
    exact inverse_transform_unfitted p A hfit

/-! ### Serving-side risk output (`health_predictor.py`) -/

/-- Source `HealthRiskOutput.compute_risk_level` (lines 117-128): bucket the
overall risk into a categorical level. -/
def computeRiskLevel (overall : ℚ) : String :=
  if overall < 3/10 then "low"
  else if overall < 1/2 then "moderate"
  else if overall < 7/10 then "high"
  else "critical"

/-- The serving response's risk block. -/
structure HealthRiskOutput where
  asthma_risk : ℚ
  heatstroke_risk : ℚ
  cardiovascular_risk : ℚ
  respiratory_risk : ℚ
  overall_risk : ℚ
  risk_level : String
  deriving DecidableEq, Repr

/-- Construction of the single-record response (lines 405-411): the four
per-condition scores, `overall_risk = float(risks.mean())`, and the level
computed from the overall risk by the pydantic validator. -/
def mkHealthRiskOutput (r0 r1 r2 r3 : ℚ) : HealthRiskOutput :=
  let overall := (r0 + r1 + r2 + r3) / 4
  ⟨r0, r1, r2, r3, overall, computeRiskLevel overall⟩

/-- C8: the overall risk of a single-record response is the arithmetic mean
of the four per-condition scores, and the categorical level is the bucketing
`< 0.3 → low`, `< 0.5 → moderate`, `< 0.7 → high`, else `critical`. -/
theorem claim_C8_overall_and_bucketing (r0 r1 r2 r3 : ℚ) :
    (mkHealthRiskOutput r0 r1 r2 r3).overall_risk = (r0 + r1 + r2 + r3) / 4
    ∧ ((mkHealthRiskOutput r0 r1 r2 r3).overall_risk < 3/10 →
        (mkHealthRiskOutput r0 r1 r2 r3).risk_level = "low")
    ∧ (3/10 ≤ (mkHealthRiskOutput r0 r1 r2 r3).overall_risk →
        (mkHealthRiskOutput r0 r1 r2 r3).overall_risk < 1/2 →
        (mkHealthRiskOutput r0 r1 r2 r3).risk_level = "moderate")
    ∧ (1/2 ≤ (mkHealthRiskOutput r0 r1 r2 r3).overall_risk →
        (mkHealthRiskOutput r0 r1 r2 r3).overall_risk < 7/10 →
        (mkHealthRiskOutput r0 r1 r2 r3).risk_level = "high")
    ∧ (7/10 ≤ (mkHealthRiskOutput r0 r1 r2 r3).overall_risk →
        (mkHealthRiskOutput r0 r1 r2 r3).risk_level = "critical") := by
  unfold mkHealthRiskOutput computeRiskLevel
  dsimp only
  refine ⟨rfl, ?_, ?_, ?_, ?_⟩ <;> intros <;> split_ifs <;>
    first
      | rfl
      | (exfalso; linarith)

/-! ### Neural network (`model.py`)

`HealthRiskPredictor` is a residual MLP over reals.  The embedding models the
inference path used by `predict_proba` (lines 117-129): `self.eval()` puts
batch-norm in running-statistics mode and disables dropout, and
`torch.no_grad()` has no numeric effect, so `forwardEval` is the eval-mode
forward pass of lines 85-115 applied to one input row.  The two
`nn.ModuleList`s of hidden linears and batch-norms, iterated with `zip` in
the source, are modelled as one list of pairs. -/

/-- An `nn.Linear` layer: weight rows and a bias per output unit. -/
structure Linear where
  weight : List (List ℝ)
  bias : List ℝ

/-- Per-channel `nn.BatchNorm1d` state: affine weight/bias and running stats. -/
structure BNParam where
  gamma : ℝ
  beta : ℝ
  mean : ℝ
  var : ℝ

/-- Default `nn.BatchNorm1d` epsilon, `eps = 1e-5`. -/
noncomputable def bnEps : ℝ := 1 / 100000

noncomputable def dotR (w x : List ℝ) : ℝ := (List.zipWith (fun a b => a * b) w x).sum

/-- Forward pass of `nn.Linear`: `W x + b`. -/
noncomputable def linF (l : Linear) (x : List ℝ) : List ℝ :=
  (l.weight.zip l.bias).map (fun p => dotR p.1 x + p.2)

/-- Eval-mode `nn.BatchNorm1d`: normalize by running statistics, then affine. -/
noncomputable def bnF (bn : List BNParam) (x : List ℝ) : List ℝ :=
  (x.zip bn).map (fun p =>
    p.2.gamma * ((p.1 - p.2.mean) / Real.sqrt (p.2.var + bnEps)) + p.2.beta)

/-- Activation `F.relu`. -/
noncomputable def reluF (x : List ℝ) : List ℝ := x.map (fun v => max v 0)

/-- Layer `nn.Dropout` in eval mode: the identity. -/
def dropoutEval (x : List ℝ) : List ℝ := x

/-- Squashing `torch.sigmoid`. -/
noncomputable def sigmoid (t : ℝ) : ℝ := 1 / (1 + Real.exp (-t))

/-- A `HealthRiskPredictor` instance (weights as constructed/loaded). -/
structure MLP where
  inputLayer : Linear
  inputBn : List BNParam
  hiddenLayers : List (Linear × List BNParam)
  outputLayer : Linear
  dropoutProb : ℝ

/-- One hidden block (lines 102-109): linear → bn → relu → dropout, then the
residual connection `x = x + residual` adds the block's input back. -/
noncomputable def residualBlock (x : List ℝ) (lb : Linear × List BNParam) : List ℝ :=
  List.zipWith (fun a b => a + b) (dropoutEval (reluF (bnF lb.2 (linF lb.1 x)))) x

/-- Eval-mode `forward` (lines 85-115). -/
noncomputable def forwardEval (m : MLP) (x : List ℝ) : List ℝ :=
  let x1 := dropoutEval (reluF (bnF m.inputBn (linF m.inputLayer x)))
  let x2 := m.hiddenLayers.foldl residualBlock x1
  (linF m.outputLayer x2).map sigmoid

/-- Source `predict_proba` (lines 117-129): eval-mode forward under `no_grad`.
It performs no fitted/loaded check of any kind. -/
noncomputable def predictProba (m : MLP) (x : List ℝ) : List ℝ := forwardEval m x

open Classical in
/-- Source `predict` (lines 131-143): `(predict_proba(x) >= threshold).long()`. -/
noncomputable def predict (m : MLP) (x : List ℝ) (threshold : ℝ) : List ℤ :=
  (predictProba m x).map (fun p => if threshold ≤ p then 1 else 0)

/-- The call `predict` with its default argument `threshold = 0.5`. -/
noncomputable def predictDefault (m : MLP) (x : List ℝ) : List ℤ := predict m x (1/2)

theorem sigmoid_bounds (t : ℝ) : 0 ≤ sigmoid t ∧ sigmoid t ≤ 1 := by
  have hpos : (0 : ℝ) < 1 + Real.exp (-t) := by positivity
  constructor
  · rw [sigmoid]; positivity
  · rw [sigmoid, div_le_one hpos]
    have := Real.exp_pos (-t)
    linarith

theorem predictProba_length (m : MLP) (x : List ℝ) :
    (predictProba m x).length =
      min m.outputLayer.weight.length m.outputLayer.bias.length := by
  unfold predictProba forwardEval linF
  simp

/-- C2: every component of `predict_proba` lies in `[0, 1]` and (for the
4-condition output head) there are 4 components per row; `predict` yields
only 0/1, a component is 1 exactly when the corresponding probability is at
least the threshold, and the default threshold is `0.5`. -/
theorem claim_C2_proba_bounds_predict_binary (m : MLP) (x : List ℝ)
    (hw : m.outputLayer.weight.length = 4) (hb : m.outputLayer.bias.length = 4) :
    (predictProba m x).length = 4
    ∧ (∀ v ∈ predictProba m x, 0 ≤ v ∧ v ≤ 1)
    ∧ ∀ θ : ℝ,
        (∀ b ∈ predict m x θ, b = 0 ∨ b = 1)
        ∧ (∀ i : ℕ, ∀ p : ℝ, (predictProba m x)[i]? = some p →
            ((predict m x θ)[i]? = some 1 ↔ θ ≤ p))
        ∧ predictDefault m x = predict m x (1/2) := by
  refine ⟨?_, ?_, ?_⟩
  · rw [predictProba_length, hw, hb]
    exact min_self 4
  · intro v hv
    have : ∃ t ∈ linF m.outputLayer
        (m.hiddenLayers.foldl residualBlock
          (dropoutEval (reluF (bnF m.inputBn (linF m.inputLayer x))))),
        sigmoid t = v := List.mem_map.mp hv
    obtain ⟨t, _, rfl⟩ := this
    exact sigmoid_bounds t
  · intro θ
    refine ⟨?_, ?_, rfl⟩
    · intro b hb2
      obtain ⟨p, _, rfl⟩ := List.mem_map.mp hb2
      by_cases hθ : θ ≤ p
      · right; rw [if_pos hθ]
      · left; rw [if_neg hθ]
    · intro i p hp
      unfold predict
      rw [List.getElem?_map, hp]
      by_cases hθ : θ ≤ p
      · simp only [Option.map_some', if_pos hθ]
        exact ⟨fun _ => hθ, fun _ => trivial⟩
      · simp only [Option.map_some', if_neg hθ]
        constructor
        · intro hcontra
          exact absurd (Option.some.inj hcontra) (by decide)
        · intro hcontra
          exact absurd hcontra hθ

/-! ### Ensemble (`model.py`, lines 209-257) -/

/-- Source `EnsembleHealthRiskPredictor.predict_proba` (lines 226-242):
`torch.stack(predictions).mean(dim=0)` — the elementwise sum of the members'
probability vectors divided by the member count.  (On an empty member list
`torch.stack` raises; the claims only concern non-empty ensembles.) -/
noncomputable def ensemblePredictProba (models : List MLP) (x : List ℝ) : List ℝ :=
  match models.map (fun m => predictProba m x) with
  | [] => []
  | p :: ps =>
    (ps.foldl (List.zipWith (fun a b => a + b)) p).map
      (fun v => v / (models.length : ℝ))

open Classical in
/-- Source `EnsembleHealthRiskPredictor.predict` (lines 244-256): thresholds the
averaged probabilities. -/
noncomputable def ensemblePredict (models : List MLP) (x : List ℝ)
    (threshold : ℝ) : List ℤ :=
  (ensemblePredictProba models x).map (fun p => if threshold ≤ p then 1 else 0)

theorem zipWith_add_getD (a b : List ℝ) (i : ℕ)
    (ha : i < a.length) (hb : i < b.length) :
    (List.zipWith (fun u v => u + v) a b).getD i 0 = a.getD i 0 + b.getD i 0 := by
  have hlen : i < (List.zipWith (fun u v : ℝ => u + v) a b).length := by
    simp [List.length_zipWith]
    omega
  rw [List.getD_eq_getElem _ _ hlen, List.getD_eq_getElem _ _ ha,
    List.getD_eq_getElem _ _ hb, List.getElem_zipWith]

theorem foldl_zipWith_add_length (vs : List (List ℝ)) (v0 : List ℝ) (L : ℕ)
    (h0 : v0.length = L) (hall : ∀ u ∈ vs, u.length = L) :
    (vs.foldl (List.zipWith (fun a b => a + b)) v0).length = L := by
  induction vs generalizing v0 with
  | nil => simpa
  | cons u us ih =>
    rw [List.foldl_cons]
    refine ih (List.zipWith (fun a b => a + b) v0 u) ?_
      (fun w hw => hall w (List.mem_cons_of_mem u hw))
    rw [List.length_zipWith, h0, hall u (List.mem_cons_self u us)]
    exact Nat.min_self L

theorem foldl_zipWith_add_getD (vs : List (List ℝ)) (v0 : List ℝ) (L i : ℕ)
    (h0 : v0.length = L) (hall : ∀ u ∈ vs, u.length = L) (hi : i < L) :
    (vs.foldl (List.zipWith (fun a b => a + b)) v0).getD i 0 =
      v0.getD i 0 + (vs.map (fun u => u.getD i 0)).sum := by
  induction vs generalizing v0 with
  | nil => simp
  | cons u us ih =>
    rw [List.foldl_cons]
    rw [ih (List.zipWith (fun a b => a + b) v0 u)
      (by rw [List.length_zipWith, h0, hall u (List.mem_cons_self u us)]
          exact Nat.min_self L)
      (fun w hw => hall w (List.mem_cons_of_mem u hw))]
    rw [zipWith_add_getD v0 u i (h0 ▸ hi) ((hall u (List.mem_cons_self u us)) ▸ hi)]
    rw [List.map_cons, List.sum_cons]
    ring

/-- C5: for a non-empty ensemble, each component of the ensemble probability
equals the arithmetic mean over the members of that member's probability for
the same component, and the ensemble `predict` thresholds that averaged
probability (mean before thresholding, not a vote over binary decisions). -/
theorem claim_C5_ensemble_averages (models : List MLP) (x : List ℝ) (L : ℕ)
    (hne : models ≠ [])
    (hlen : ∀ m ∈ models, (predictProba m x).length = L) :
    (∀ i, i < L →
      (ensemblePredictProba models x).getD i 0 =
        (models.map (fun m => (predictProba m x).getD i 0)).sum / (models.length : ℝ))
    ∧ (∀ θ : ℝ, ∀ i : ℕ, ∀ p : ℝ, (ensemblePredictProba models x)[i]? = some p →
        (ensemblePredict models x θ)[i]? = some (if θ ≤ p then (1 : ℤ) else 0)) := by
  constructor
  · intro i hi
    cases models with
    | nil => exact absurd rfl hne
    | cons m ms =>
      unfold ensemblePredictProba
      rw [List.map_cons]
      have hfold_len : ((ms.map (fun m => predictProba m x)).foldl
          (List.zipWith (fun a b => a + b)) (predictProba m x)).length = L :=
        foldl_zipWith_add_length _ _ L (hlen m (List.mem_cons_self m ms))
          (by
            intro u hu
            obtain ⟨m', hm', rfl⟩ := List.mem_map.mp hu
            exact hlen m' (List.mem_cons_of_mem m hm'))
      have hIdx : i < ((ms.map (fun m => predictProba m x)).foldl
          (List.zipWith (fun a b => a + b)) (predictProba m x)).length := by
        rw [hfold_len]; exact hi
      rw [List.getD_eq_getElem _ _ (by simpa using hIdx), List.getElem_map]
      rw [← List.getD_eq_getElem _ _ hIdx]
      rw [foldl_zipWith_add_getD _ _ L i (hlen m (List.mem_cons_self m ms))
        (by
          intro u hu
          obtain ⟨m', hm', rfl⟩ := List.mem_map.mp hu
          exact hlen m' (List.mem_cons_of_mem m hm')) hi]
      rw [List.map_cons, List.sum_cons, List.map_map]
      rfl
  · intro θ i p hp
    unfold ensemblePredict
    rw [List.getElem?_map, hp, Option.map_some']

/-! ### Concrete model instances for the pre-fit claims -/

/-- One admissible freshly-constructed `HealthRiskPredictor` (hyperparameters
`input_size=1, hidden_size=1, output_size=4, num_hidden_layers=0,
dropout=0.3`): batch-norm starts at its PyTorch defaults
(`gamma=1, beta=0, running_mean=0, running_var=1`), biases start at 0
(`_initialize_weights`), and the Xavier-uniform weight draw shown here (all
zeros) lies in the support of `xavier_uniform_`.  No `fit`/`load` ever ran. -/
noncomputable def mFresh : MLP :=
  { inputLayer := ⟨[[0]], [0]⟩
    inputBn := [⟨1, 0, 0, 1⟩]
    hiddenLayers := []
    outputLayer := ⟨[[0], [0], [0], [0]], [0, 0, 0, 0]⟩
    dropoutProb := 3/10 }

/-- Evaluating the fresh model: `predict_proba` returns a probability vector
(sigmoid of the zero logits), raising nothing. -/
theorem mFresh_eval : predictProba mFresh [0] = [1/2, 1/2, 1/2, 1/2] := by
  unfold mFresh predictProba forwardEval linF bnF reluF dropoutEval dotR sigmoid
  norm_num [Real.exp_zero]

/-! ### Early stopping and the training driver (`train_model.py`)

`EarlyStopping.__call__` (lines 56-80) snapshots `model.state_dict().copy()`.
`state_dict()` returns references to the live parameter tensors and
`dict.copy()` is a shallow copy, so the stored "snapshot" aliases the
parameters that `optimizer.step()` keeps mutating in place; and
`load_state_dict` copies values out of those same tensors, which makes the
final restore a no-op.  The embedding makes the aliasing explicit: model
parameters live in a positional store (`List ℚ`), a state-dict copy is the
list of parameter indices, and restoring reads the store through those
indices.  The per-epoch numeric work (`train_epoch`: Adam/BCE updates) and
the validation loss are abstracted as the functions `trainEpoch`/`valLoss`;
the scheduler and history bookkeeping have no effect on the restored
weights and are omitted. -/

/-- State of `EarlyStopping` (lines 41-54); `S` is the snapshot type. -/
structure EarlyStopping (S : Type) where
  patience : Nat
  min_delta : ℚ
  modeMin : Bool
  counter : Nat
  best_score : Option ℚ
  early_stop : Bool
  best_model_state : Option S

/-- Source `EarlyStopping.__init__`. -/
def esInit (S : Type) (patience : Nat) (min_delta : ℚ) (modeMin : Bool) :
    EarlyStopping S :=
  ⟨patience, min_delta, modeMin, 0, none, false, none⟩

/-- Source `EarlyStopping._is_improvement` (lines 82-87). -/
def isImprovement (modeMin : Bool) (min_delta best score : ℚ) : Bool :=
  if modeMin then decide (score < best - min_delta)
  else decide (best + min_delta < score)

/-- Source `EarlyStopping.__call__` (lines 56-80): returns `self.early_stop` and the
updated state; `snap` is what `model.state_dict().copy()` produced. -/
def esCall {S : Type} (es : EarlyStopping S) (score : ℚ) (snap : S) :
    Bool × EarlyStopping S :=
  match es.best_score with
  | none =>
    let es' := { es with best_score := some score, best_model_state := some snap }
    (es'.early_stop, es')
  | some best =>
    if isImprovement es.modeMin es.min_delta best score then
      let es' := { es with best_score := some score, best_model_state := some snap, counter := 0 }
      (es'.early_stop, es')
    else
      let c := es.counter + 1
      let es' := { es with counter := c, early_stop := es.early_stop || decide (es.patience ≤ c) }
      (es'.early_stop, es')

/-- Call `model.state_dict().copy()`: a shallow dict copy whose tensors are
references to the live parameters — modelled as the parameter indices. -/
def stateDictCopy (nParams : Nat) : List Nat := List.range nParams

/-- Source `load_best_model` (lines 89-92) followed by `load_state_dict`: copy the
values currently held by the referenced tensors into the parameters.  With
aliased references this reads the live store itself. -/
def loadBestModel (params : List ℚ) (es : EarlyStopping (List Nat)) : List ℚ :=
  match es.best_model_state with
  | none => params
  | some refs => refs.map (fun i => params.getD i 0)

/-- The epoch loop of `train_model` (lines 356-378): train, validate, call
early stopping, break when it fires. -/
def runEpochs (trainEpoch : List ℚ → List ℚ) (valLoss : List ℚ → ℚ) :
    Nat → List ℚ → EarlyStopping (List Nat) → List ℚ × EarlyStopping (List Nat)
  | 0, params, es => (params, es)
  | n + 1, params, es =>
    let params2 := trainEpoch params
    let r := esCall es (valLoss params2) (stateDictCopy params2.length)
    if r.1 then (params2, r.2) else runEpochs trainEpoch valLoss n params2 r.2

/-- Source `train_model` (lines 332-383): run the epoch loop with a fresh
`EarlyStopping(patience, mode='min')`, then restore the "best" snapshot. -/
def train_model (numEpochs : Nat) (params0 : List ℚ)
    (trainEpoch : List ℚ → List ℚ) (valLoss : List ℚ → ℚ)
    (patience : Nat) (min_delta : ℚ) : List ℚ :=
  let r := runEpochs trainEpoch valLoss numEpochs params0
    (esInit (List Nat) patience min_delta true)
  loadBestModel r.1 r.2

/-- Modelled from the spec: the intended early-stopping semantics, in which
the callback captures the parameter *values* at call time ("the best-seen
weight snapshot") and the final restore installs those values.  Identical to
`runEpochs`/`train_model` except that the snapshot type is the value
vector. -/
def runEpochsSpec (trainEpoch : List ℚ → List ℚ) (valLoss : List ℚ → ℚ) :
    Nat → List ℚ → EarlyStopping (List ℚ) → List ℚ × EarlyStopping (List ℚ)
  | 0, params, es => (params, es)
  | n + 1, params, es =>
    let params2 := trainEpoch params
    let r := esCall es (valLoss params2) params2
    if r.1 then (params2, r.2) else runEpochsSpec trainEpoch valLoss n params2 r.2

/-- Modelled from the spec: `train_model` with value snapshots restored. -/
def train_model_spec (numEpochs : Nat) (params0 : List ℚ)
    (trainEpoch : List ℚ → List ℚ) (valLoss : List ℚ → ℚ)
    (patience : Nat) (min_delta : ℚ) : List ℚ :=
  let r := runEpochsSpec trainEpoch valLoss numEpochs params0
    (esInit (List ℚ) patience min_delta true)
  match r.2.best_model_state with
  | none => r.1
  | some w => w

set_option maxHeartbeats 1000000 in
/-- C3 evidence: with `patience = 1`, `min_delta = 0`, initial weights `[0]`,
an optimizer step that increments the weight each epoch, and a constant
validation loss `1`, the loop halts after 2 epochs (within `patience + 1`);
but the weights `train_model` restores are the *final* epoch's `[2]`, because
the "snapshot" aliases the live parameters — whereas the snapshot semantics
the spec describes (`train_model_spec`) restores the last improving epoch's
weights `[1]`.  The two disagree, exhibiting the
`state_dict().copy()` shallow-copy bug. -/
theorem claim_C3_restore_aliasing_bug :
    train_model 5 [0] (fun l => l.map (fun v => v + 1)) (fun _ => 1) 1 0 = [2]
    ∧ train_model_spec 5 [0] (fun l => l.map (fun v => v + 1)) (fun _ => 1) 1 0 = [1]
    ∧ ([2] : List ℚ) ≠ [1] := by
  refine ⟨?_, ?_, by norm_num⟩ <;>
    norm_num [train_model, train_model_spec, runEpochs, runEpochsSpec, esCall, esInit,
      isImprovement, stateDictCopy, loadBestModel, List.range_succ, List.range_zero]

/-! ### C6: pre-fit guards -/

/-- C6 counterexample: `HealthRiskPredictor.predict_proba` called on a model
that was never fitted/loaded raises nothing and produces a result — the
probability vector of the freshly initialized network — contradicting the
claim that it raises a fatal usage error with no result produced.  (The
before-load guard exists only in the serving endpoints, and `transform`
does raise.) -/
theorem claim_C6_counterexample_no_guard :
    predictProba mFresh [0] = [1/2, 1/2, 1/2, 1/2] :=
  mFresh_eval

/-- C6 (amended): calling `DataProcessor.transform` before `fit` raises a
fatal `ValueError`; `HealthRiskPredictor.predict_proba`, however, performs no
fitted/loaded check and produces a vector of 4 probabilities in `[0,1]` even
on a freshly constructed, never-fitted model. -/
theorem claim_C6_amended_guards (p : DataProcessor) (X : DF)
    (h : p.is_fitted = false) :
    transform p X = .error (.valueError "DataProcessor must be fitted before transform")
    ∧ (predictProba mFresh [0]).length = 4
    ∧ (∀ v ∈ predictProba mFresh [0], 0 ≤ v ∧ v ≤ 1) := by
  refine ⟨transform_unfitted p X h, ?_, ?_⟩
  · rw [mFresh_eval]
    rfl
  · rw [mFresh_eval]
    intro v hv
    simp only [List.mem_cons, List.not_mem_nil, or_false] at hv
    rcases hv with rfl | rfl | rfl | rfl <;> norm_num

/-! ### Concrete instances and witnesses -/

/-- A fitted processor: standard scaler (centers 0, scales 1), median
imputer with statistics `[5, 7]`, no feature engineering, fitted on
columns `["a", "b"]`. -/
def pW1 : DataProcessor :=
  ⟨"standard", "simple", false, .standard [0, 0] [1, 1], .simple "median" [5, 7],
    true, some ["a", "b"], none, some ["a", "b"]⟩

/-- A one-row frame whose `"b"` cell is missing. -/
def XW1 : DF := ⟨["a", "b"], [[some 1, none]]⟩

theorem claim_C1_witness :
    transform pW1 XW1 = .ok ([[1, 7]], XW1) := by
  have h := (claim_C1_transform_pipeline pW1 XW1 ["a", "b"]
    ⟨rfl, rfl, rfl, rfl, rfl⟩).1
  rw [h]
  norm_num [transformRow, transformFrame, missingCols, zfColsList, zfRowList,
    imputeRow, scaleRow, getVal, colIdx, XW1, pW1]
  decide

theorem claim_C2_witness :
    (predictProba mFresh [0]).length = 4 ∧ (predict mFresh [0] (1/2))[0]? = some 1 := by
  have h := claim_C2_proba_bounds_predict_binary mFresh [0] rfl rfl
  refine ⟨h.1, ?_⟩
  have hp : (predictProba mFresh [0])[0]? = some (1/2) := by
    rw [mFresh_eval]
    simp
  exact ((h.2.2 (1/2)).2.1 0 (1/2) hp).mpr (le_refl _)

/-- A one-row frame carrying only a temperature reading. -/
def XW4 : DF := ⟨["temperature"], [[some 40]]⟩

theorem claim_C4_witness :
    engineerF (engineerF XW4) = engineerF XW4
    ∧ (engineerF XW4).cols = ["temperature", "temp_squared", "extreme_heat", "extreme_cold"] := by
  have h := claim_C4_engineer_idempotent XW4 XW4 (by intro row hrow; simp [XW4] at hrow; simp [hrow, XW4])
  refine ⟨h.1, ?_⟩
  rw [h.2.2]
  decide

theorem claim_C5_witness :
    (ensemblePredictProba [mFresh] [0]).getD 0 0 =
      ([mFresh].map (fun m => (predictProba m [0]).getD 0 0)).sum / (([mFresh].length : ℕ) : ℝ) := by
  have hlen : ∀ m ∈ [mFresh], (predictProba m [0]).length = 4 := by
    intro m hm
    simp only [List.mem_singleton] at hm
    rw [hm, mFresh_eval]
    rfl
  exact (claim_C5_ensemble_averages [mFresh] [0] 4 (by simp) hlen).1 0 (by norm_num)

/-- A freshly constructed, never-fitted processor (standard + knn). -/
def pW6 : DataProcessor :=
  ⟨"standard", "knn", true, .standard [] [], .knn 5 [], false, none, none, none⟩

theorem claim_C6_witness :
    transform pW6 ⟨[], []⟩ =
      .error (.valueError "DataProcessor must be fitted before transform") :=
  (claim_C6_amended_guards pW6 ⟨[], []⟩ rfl).1

/-- The processor record `mkDataProcessor "standard" "knn" true` builds. -/
def pW7 : DataProcessor :=
  ⟨"standard", "knn", true, .standard [] [], .knn 5 [], false, none, none, none⟩

theorem claim_C7_witness :
    isOkE (mkDataProcessor "standard" "knn" true) = true
    ∧ isOkE (mkDataProcessor "minmax" "knn" true) = false
    ∧ pW7.is_fitted = false := by
  refine ⟨?_, ?_, ?_⟩
  · exact (claim_C7_constructor_validation "standard" "knn" true).1.mpr
      ⟨Or.inl rfl, Or.inr rfl⟩
  · have h2 := (claim_C7_constructor_validation "minmax" "knn" true).1
    cases hval : isOkE (mkDataProcessor "minmax" "knn" true) with
    | false => rfl
    | true =>
      exfalso
      obtain ⟨hst, _⟩ := h2.mp hval
      rcases hst with h' | h' <;> simp at h'
  · exact ((claim_C7_constructor_validation "standard" "knn" true).2 pW7 rfl).1

theorem claim_C8_witness :
    (mkHealthRiskOutput (1/10) (2/10) (3/10) (2/10)).risk_level = "low" := by
  have h := claim_C8_overall_and_bucketing (1/10) (2/10) (3/10) (2/10)
  refine h.2.1 ?_
  rw [h.1]
  norm_num

/-- A fitted, engineering-disabled processor over columns `["a", "b"]`. -/
def pW9 : DataProcessor :=
  ⟨"standard", "simple", false, .standard [0, 0] [1, 1], .simple "median" [5, 7],
    true, some ["a", "b"], none, some ["a", "b"]⟩

/-- A caller frame missing fitted column `"b"`. -/
def XW9 : DF := ⟨["a"], [[some 1]]⟩

theorem claim_C9_witness :
    transformFrame pW9 ["a", "b"] XW9 ≠ XW9 := by
  have htr := transform_eq pW9 XW9 ["a", "b"] rfl rfl
  have h := (claim_C9_caller_frame pW9 XW9 ["a", "b"] rfl rfl (by decide)).2 rfl
    (XW9.rows.map (transformRow pW9 ["a", "b"] XW9.cols))
    (transformFrame pW9 ["a", "b"] XW9) htr
  exact h.2.2 (by decide)

/-- The processor record `mkDataProcessor "robust" "simple" false` builds. -/
def pW10 : DataProcessor :=
  ⟨"robust", "simple", false, .robust [] [], .simple "median" [],
    false, none, none, none⟩

theorem claim_C10_witness :
    save pW10 = .error (.attributeError
      "DataProcessor object has no attribute fitted_feature_names") :=
  (claim_C10_save_unfitted "robust" "simple" false pW10 rfl).1

end ClimateHealth
